import Mathlib

/-!
Verification of the cpphamming repository: a Hamming(7,4) encoder
(hamming_enc.cpp), a channel-noise simulator (hamming_err.cpp), a decoder
(hamming_dec.cpp), and a combined single-entry-point variant (hamming.cpp).

Bits are modelled as Bool, bit streams as List Bool, bytes as Nat (< 256).
The C++ loops scan their arrays back-to-front (a memory-conservation
device: the vector is repeatedly shrunk) and restore stream order with a
final std::reverse; each definition below keeps that structure explicitly
(process the reversed group list, emit each group reversed, reverse the
result) and a characterization lemma rewrites it to the forward form.
-/

namespace Cpphamming

/-- Numeric value of one bit, as used when the C++ code ORs bits into a
byte or an int. -/
def bitVal (b : Bool) : Nat := if b then 1 else 0

/-- Bits of one byte, most significant first: the inner loop of
bytesToBits pushes `(byte >> o) & 1` for `o = 7 .. 0`. -/
def byteBitsMsb (b : Nat) : List Bool :=
  [b.testBit 7, b.testBit 6, b.testBit 5, b.testBit 4,
   b.testBit 3, b.testBit 2, b.testBit 1, b.testBit 0]

/-- Fuel-indexed worker for chunking a list into groups of `n`
(structural recursion on fuel so that everything evaluates by rfl). -/
def chunksOfFuel (n : Nat) : Nat → List α → List (List α)
  | 0, _ => []
  | _, [] => []
  | fuel + 1, x :: xs => (x :: xs).take n :: chunksOfFuel n fuel ((x :: xs).drop n)

/-- Successive groups of `n` elements of `l`, in order; a final group
shorter than `n` is kept as is (callers align `l` first). -/
def chunksOf (n : Nat) (l : List α) : List (List α) :=
  chunksOfFuel n l.length l

/-- bytesToBits of hamming_enc.cpp/hamming_dec.cpp: the loop walks the
byte array backwards, pushes each byte's bits MSB-first, reverses them
(to LSB-first), appends, and a final reverse restores stream order. -/
def bytesToBits (bytesArray : List Nat) : List Bool :=
  ((bytesArray.reverse.map fun b => (byteBitsMsb b).reverse).flatten).reverse

/-- Trailing zero-padding of a bit array up to a multiple of 8, the
byteAdjust=1 branch of bitsToBytes with its adjustFactor formula. -/
def padToByte (bitsArray : List Bool) : List Bool :=
  if bitsArray.length % 8 > 0 then
    bitsArray ++ List.replicate ((bitsArray.length / 8 + 1) * 8 - bitsArray.length) false
  else bitsArray

/-- Byte assembled from one 8-bit group in stream order. In the backward
scan of bitsToBytes, bit8Array[k] is the stream bit at distance k from
the group's end, ORed in with weight 2^k, so the first bit of the group
in stream order carries weight 128. -/
def packByte (bit8 : List Bool) : Nat :=
  128 * bitVal (bit8.getD 0 false) + 64 * bitVal (bit8.getD 1 false) +
  32 * bitVal (bit8.getD 2 false) + 16 * bitVal (bit8.getD 3 false) +
  8 * bitVal (bit8.getD 4 false) + 4 * bitVal (bit8.getD 5 false) +
  2 * bitVal (bit8.getD 6 false) + bitVal (bit8.getD 7 false)

/-- bitsToBytes of hamming_enc.cpp/hamming_dec.cpp: optional trailing
zero-padding (byteAdjust = 1), then the backward scan packs aligned
8-bit groups from the end of the array — the leading `length % 8` bits
never fill a group and are dropped — pushing bytes in reverse order and
reversing at the end. -/
def bitsToBytes (bitsArray : List Bool) (byteAdjust : Nat) : List Nat :=
  let adjusted := if byteAdjust = 1 then padToByte bitsArray else bitsArray
  (((chunksOf 8 (adjusted.drop (adjusted.length % 8))).reverse.map packByte)).reverse

/-- Hamming position of the z-th data bit of a nibble (the switch on z
in addHammingParity): stream-order data bits go to positions 7,6,5,3. -/
def posOf (z : Nat) : Nat :=
  if z = 0 then 7 else if z = 1 then 6 else if z = 2 then 5 else 3

/-- Positions (in Hamming numbering) of the data bits of the nibble that
are 1; addHammingParity pushes the 3-bit expansion of each such position
onto xorParity. -/
def oddDataPositions (bit4 : List Bool) : List Nat :=
  (List.range 4).filterMap fun z => if bit4.getD z false then some (posOf z) else none

/-- Column parity over a list of 3-bit position expansions: the stride-3
counting loop sets the bit to 1 exactly when an odd number of the listed
positions have bit `w` set. -/
def columnParity (w : Nat) (positions : List Nat) : Bool :=
  positions.countP (fun f => f.testBit w) % 2 = 1

/-- One encoded block in stream order, positions 7..1 at indices 0..6:
hamming7Bits of addHammingParity is built as [P1,P2,D3,P4,D5,D6,D7] and
the final global reverse puts it in this order. -/
def addHamming7 (bit4 : List Bool) : List Bool :=
  [bit4.getD 0 false, bit4.getD 1 false, bit4.getD 2 false,
   columnParity 2 (oddDataPositions bit4),
   bit4.getD 3 false,
   columnParity 1 (oddDataPositions bit4),
   columnParity 0 (oddDataPositions bit4)]

/-- addHammingParity of hamming_enc.cpp: the backward scan forms 4-bit
groups aligned to the end of the array (so the leading `length % 4` bits
never complete a group), emits each block reversed, and the final
reverse restores stream order. -/
def addHammingParity (boolBitsArray : List Bool) : List Bool :=
  (((chunksOf 4 (boolBitsArray.drop (boolBitsArray.length % 4))).reverse.map
      fun c => (addHamming7 c).reverse).flatten).reverse

/-- Hamming positions of the 1-bits of a received 7-bit block: the first
loop of hammingCorrection maps array index i to position 7 - i and
pushes the 3-bit expansion of that position. -/
def oddBitPositions (hamming7Bit : List Bool) : List Nat :=
  (List.range hamming7Bit.length).filterMap fun i =>
    if hamming7Bit.getD i false then some (7 - i) else none

/-- flipBit of hammingCorrection: the three column parities assembled as
an integer (corrPosBits[5] is the weight-4 bit, corrPosBits[7] the
weight-1 bit). -/
def flipBitOf (hamming7Bit : List Bool) : Nat :=
  4 * bitVal (columnParity 2 (oddBitPositions hamming7Bit)) +
  2 * bitVal (columnParity 1 (oddBitPositions hamming7Bit)) +
  bitVal (columnParity 0 (oddBitPositions hamming7Bit))

/-- Invert the bit at index i (the in-place `v[i] = !v[i]`). -/
def listFlip (l : List Bool) (i : Nat) : List Bool :=
  l.set i (!(l.getD i false))

/-- hammingCorrection of hamming_dec.cpp: when flipBit > 0 the bit at
array index 7 - flipBit is inverted; the data bits are then read off at
indices 4,2,1,0 — reversed stream order, undone by the caller's final
reverse. -/
def hammingCorrection (hamming7Bit : List Bool) : List Bool :=
  let corrected :=
    if 0 < flipBitOf hamming7Bit then
      listFlip hamming7Bit (7 - flipBitOf hamming7Bit)
    else hamming7Bit
  [corrected.getD 4 false, corrected.getD 2 false,
   corrected.getD 1 false, corrected.getD 0 false]

/-- removeHammingParity of hamming_dec.cpp: the scan starts at index
`(length / 7) * 7 - 1` (so trailing bits beyond the largest multiple of
7 are discarded), forms 7-bit groups backwards, and the final reverse
restores stream order while un-reversing each emitted nibble. -/
def removeHammingParity (boolBitsArray : List Bool) : List Bool :=
  (((chunksOf 7 (boolBitsArray.take (7 * (boolBitsArray.length / 7)))).reverse.map
      hammingCorrection).flatten).reverse

/-- Spec-level encode_block on a nibble given in stream order. -/
def encodeBlock (d0 d1 d2 d3 : Bool) : List Bool :=
  addHamming7 [d0, d1, d2, d3]

/-- Spec-level decode_block: the recovered nibble in stream order, and
the corrected flag, which is the `flipBit > 0` branch condition of
hammingCorrection (true exactly when a corrective flip was applied). -/
def decodeBlock (hamming7Bit : List Bool) : List Bool × Bool :=
  ((hammingCorrection hamming7Bit).reverse, decide (0 < flipBitOf hamming7Bit))

/-- applyHamming of hamming_enc.cpp without the file I/O: bytes → bits →
Hamming blocks → bytes with trailing zero-padding. -/
def applyHamming (fileBytes : List Nat) : List Nat :=
  bitsToBytes (addHammingParity (bytesToBits fileBytes)) 1

/-- recoverHamming of hamming_dec.cpp without the file I/O: bytes → bits
→ corrected nibbles → bytes with no padding. -/
def recoverHamming (fileBytes : List Nat) : List Nat :=
  bitsToBytes (removeHammingParity (bytesToBits fileBytes)) 0

/-- randomIntNum of hamming_err.cpp applied to one raw `rand()` draw r:
`min + r % (max + 1 - min)`. -/
def randomIntNum (mn mx r : Nat) : Nat := mn + r % (mx + 1 - mn)

/-- One codeword of the noise pass (lines 225-231 of hamming_err.cpp):
if the first draw lands on the sentinel value 4 (one outcome in seven),
flip the bit at the position given by the second draw, else leave the
group untouched. -/
def corruptGroup (r1 r2 : Nat) (group : List Bool) : List Bool :=
  if randomIntNum 0 6 r1 = 4 then listFlip group (randomIntNum 0 6 r2) else group

/-- Fuel-indexed worker for hammingError; σ is the stream of successive
raw `rand()` results and t the index of the next unconsumed draw (one
draw per group, plus a second when the first hits the sentinel). -/
def hammingErrorFuel (σ : Nat → Nat) : Nat → Nat → List Bool → List Bool
  | _, 0, arr => arr
  | t, fuel + 1, arr =>
    if 7 ≤ arr.length then
      corruptGroup (σ t) (σ (t + 1)) (arr.take 7) ++
        hammingErrorFuel σ (if randomIntNum 0 6 (σ t) = 4 then t + 2 else t + 1)
          fuel (arr.drop 7)
    else arr

/-- hammingError of hamming_err.cpp: the loop visits the complete 7-bit
groups (stopping at `(length / 7) * 7`) and possibly flips one bit in
each; bits after the last complete group are returned unchanged. -/
def hammingError (σ : Nat → Nat) (boolBitsArray : List Bool) : List Bool :=
  hammingErrorFuel σ 0 boolBitsArray.length boolBitsArray

/-- errorHamming of hamming_err.cpp without the file I/O. -/
def errorHamming (σ : Nat → Nat) (fileBytes : List Nat) : List Nat :=
  bitsToBytes (hammingError σ (bytesToBits fileBytes)) 0

/-- str2int of hamming.cpp on a selector given as its list of byte
values: the recursive hash `!str[h] ? 5381 : (str2int(str,h+1)*33) ^
str[h]` in 32-bit unsigned arithmetic (for bytes < 128 the char-to-int
promotion is the identity). -/
def str2int : List Nat → Nat
  | [] => 5381
  | c :: rest => ((str2int rest * 33) % 4294967296) ^^^ c

/-- Outcome of main's switch in hamming.cpp. -/
inductive MainAction where
  | encodeAction : MainAction
  | decodeAction : MainAction
  | invalidParams : MainAction
deriving DecidableEq

/-- The switch of main in hamming.cpp: dispatch on the hash of the mode
selector against the hashes of "0" (byte 48) and "1" (byte 49); any
other hash value falls to the default branch, which only prints an
error message. -/
def mainDispatch (actionNow : List Nat) : MainAction :=
  if str2int actionNow = str2int [48] then MainAction.encodeAction
  else if str2int actionNow = str2int [49] then MainAction.decodeAction
  else MainAction.invalidParams

/-- Modelled from the spec, for comparison with bitsToBytes: §4.4 and §7
describe the decode-side byte packing as keeping the complete leading
bytes and dropping the final partial byte when the recovered bit count
is not a multiple of 8. -/
def bitsToBytesDropFinalSpec (bits : List Bool) : List Nat :=
  (chunksOf 8 (bits.take (8 * (bits.length / 8)))).map packByte

/-- Number of positions at which two equal-length bit lists differ. -/
def diffCount (a b : List Bool) : Nat :=
  (a.zip b).countP fun p => p.1 != p.2

/-! Generic helpers about the backward-scan-and-reverse idiom and about
chunked lists. -/

/-- Net effect of a backward scan that emits each group's image reversed
and reverses the concatenation at the end: a plain forward map. -/
theorem reverse_flatten_map_reverse (L : List α) (f : α → List β) :
    ((L.reverse.map fun x => (f x).reverse).flatten).reverse = (L.map f).flatten := by
  induction L with
  | nil => rfl
  | cons a L ih =>
    simp only [List.reverse_cons, List.map_append, List.map_cons, List.map_nil,
      List.flatten_append, List.flatten_cons, List.flatten_nil, List.append_nil,
      List.reverse_append, List.reverse_reverse, ih]

/-- Net effect of a backward scan that emits each group's image as is and
reverses the concatenation at the end: a forward map of the reversed
images. -/
theorem reverse_flatten_map (L : List α) (f : α → List β) :
    ((L.reverse.map f).flatten).reverse = (L.map fun x => (f x).reverse).flatten := by
  induction L with
  | nil => rfl
  | cons a L ih =>
    simp only [List.reverse_cons, List.map_append, List.map_cons, List.map_nil,
      List.flatten_append, List.flatten_cons, List.flatten_nil, List.append_nil,
      List.reverse_append, ih]

/-- chunksOfFuel does not depend on the fuel once it covers the list
length. -/
theorem chunksOfFuel_fuel_eq (n : Nat) (hn : 0 < n) :
    ∀ f1 f2 (l : List α), l.length ≤ f1 → l.length ≤ f2 →
      chunksOfFuel n f1 l = chunksOfFuel n f2 l := by
  intro f1
  induction f1 with
  | zero =>
    intro f2 l h1 _
    have hl : l = [] := List.length_eq_zero.mp (Nat.le_zero.mp h1)
    subst hl
    cases f2 <;> rfl
  | succ f1 ih =>
    intro f2 l h1 h2
    cases l with
    | nil => cases f2 <;> rfl
    | cons x xs =>
      cases f2 with
      | zero => simp at h2
      | succ f2 =>
        simp only [List.length_cons] at h1 h2
        simp only [chunksOfFuel]
        have hd : ((x :: xs).drop n).length ≤ f1 := by
          simp only [List.length_drop, List.length_cons]
          omega
        have hd2 : ((x :: xs).drop n).length ≤ f2 := by
          simp only [List.length_drop, List.length_cons]
          omega
        rw [ih f2 _ hd hd2]

/-- Unfolding equation for chunksOf on a non-empty list. -/
theorem chunksOf_eq_cons (n : Nat) (hn : 0 < n) (l : List α) (hl : l ≠ []) :
    chunksOf n l = l.take n :: chunksOf n (l.drop n) := by
  cases l with
  | nil => exact absurd rfl hl
  | cons x xs =>
    show chunksOfFuel n (xs.length + 1) (x :: xs) = _
    simp only [chunksOfFuel]
    congr 1
    exact chunksOfFuel_fuel_eq n hn xs.length ((x :: xs).drop n).length _
      (by simp only [List.length_drop, List.length_cons]; omega) (Nat.le_refl _)

/-- A chunk of exactly n elements splits off the front. -/
theorem chunksOf_append (n : Nat) (hn : 0 < n) (a b : List α) (ha : a.length = n) :
    chunksOf n (a ++ b) = a :: chunksOf n b := by
  have hne : a ++ b ≠ [] := by
    intro h
    rcases List.append_eq_nil.mp h with ⟨h1, _⟩
    subst h1
    simp at ha
    omega
  rw [chunksOf_eq_cons n hn _ hne, List.take_left' ha, List.drop_left' ha]

/-- Chunking a concatenation of n-element groups recovers the groups. -/
theorem chunksOf_flatten (n : Nat) (hn : 0 < n) (L : List (List α))
    (hL : ∀ c ∈ L, c.length = n) : chunksOf n L.flatten = L := by
  induction L with
  | nil => rfl
  | cons a L ih =>
    rw [List.flatten_cons, chunksOf_append n hn a L.flatten (hL a (List.mem_cons_self a L)),
      ih fun c hc => hL c (List.mem_cons_of_mem a hc)]

/-- Concatenating the chunks gives back the original list. -/
theorem flatten_chunksOf (n : Nat) (hn : 0 < n) (l : List α) :
    (chunksOf n l).flatten = l := by
  suffices h : ∀ len (l : List α), l.length = len → (chunksOf n l).flatten = l from
    h l.length l rfl
  intro len
  induction len using Nat.strong_induction_on with
  | _ len ih =>
    intro l hl
    cases l with
    | nil => rfl
    | cons x xs =>
      rw [chunksOf_eq_cons n hn _ (by simp), List.flatten_cons,
        ih (((x :: xs).drop n).length)
          (by simp only [List.length_drop, List.length_cons] at hl ⊢; omega) _ rfl,
        List.take_append_drop]

/-- Number of chunks when n divides the length. -/
theorem chunksOf_length (n : Nat) (hn : 0 < n) (l : List α) (h : n ∣ l.length) :
    (chunksOf n l).length = l.length / n := by
  suffices hs : ∀ len (l : List α), l.length = len → n ∣ l.length →
      (chunksOf n l).length = l.length / n from hs l.length l rfl h
  intro len
  induction len using Nat.strong_induction_on with
  | _ len ih =>
    intro l hl hdvd
    cases l with
    | nil => simp [chunksOf, chunksOfFuel]
    | cons x xs =>
      have hlen : n ≤ (x :: xs).length := by
        rcases hdvd with ⟨k, hk⟩
        rcases k with _ | k
        · simp at hk
        · simp only [hk]
          calc n = n * 1 := (Nat.mul_one n).symm
            _ ≤ n * (k + 1) := Nat.mul_le_mul_left n (by omega)
      rw [chunksOf_eq_cons n hn _ (by simp), List.length_cons,
        ih (((x :: xs).drop n).length)
          (by simp only [List.length_drop, List.length_cons] at hl ⊢; omega) _ rfl
          (by simp only [List.length_drop]; exact Nat.dvd_sub' hdvd (Nat.dvd_refl n))]
      simp only [List.length_drop]
      rw [Nat.div_eq_sub_div hn hlen]

/-- Every chunk has exactly n elements when n divides the length. -/
theorem chunksOf_mem_length (n : Nat) (hn : 0 < n) (l : List α) (h : n ∣ l.length) :
    ∀ c ∈ chunksOf n l, c.length = n := by
  suffices hs : ∀ len (l : List α), l.length = len → n ∣ l.length →
      ∀ c ∈ chunksOf n l, c.length = n from hs l.length l rfl h
  intro len
  induction len using Nat.strong_induction_on with
  | _ len ih =>
    intro l hl hdvd
    cases l with
    | nil => intro c hc; simp [chunksOf, chunksOfFuel] at hc
    | cons x xs =>
      have hlen : n ≤ (x :: xs).length := by
        rcases hdvd with ⟨k, hk⟩
        rcases k with _ | k
        · simp at hk
        · simp only [hk]
          calc n = n * 1 := (Nat.mul_one n).symm
            _ ≤ n * (k + 1) := Nat.mul_le_mul_left n (by omega)
      rw [chunksOf_eq_cons n hn _ (by simp)]
      intro c hc
      rcases List.mem_cons.mp hc with hc | hc
      · subst hc
        simp only [List.length_take]
        omega
      · exact ih (((x :: xs).drop n).length)
          (by simp only [List.length_drop, List.length_cons] at hl ⊢; omega) _ rfl
          (by simp only [List.length_drop]; exact Nat.dvd_sub' hdvd (Nat.dvd_refl n)) c hc

/-- Length of a flattened map whose images all have length k. -/
theorem flatten_map_length (L : List α) (f : α → List β) (k : Nat)
    (h : ∀ c ∈ L, (f c).length = k) : ((L.map f).flatten).length = k * L.length := by
  induction L with
  | nil => simp
  | cons a L ih =>
    simp only [List.map_cons, List.flatten_cons, List.length_append, List.length_cons,
      h a (List.mem_cons_self a L), ih fun c hc => h c (List.mem_cons_of_mem a hc)]
    ring

/-! Forward characterizations of the backward-scan functions. -/

theorem bytesToBits_eq (bytesArray : List Nat) :
    bytesToBits bytesArray = (bytesArray.map byteBitsMsb).flatten :=
  reverse_flatten_map_reverse bytesArray byteBitsMsb

theorem addHammingParity_eq (l : List Bool) :
    addHammingParity l =
      ((chunksOf 4 (l.drop (l.length % 4))).map addHamming7).flatten :=
  reverse_flatten_map_reverse _ addHamming7

theorem removeHammingParity_eq (l : List Bool) :
    removeHammingParity l =
      ((chunksOf 7 (l.take (7 * (l.length / 7)))).map
        fun c => (hammingCorrection c).reverse).flatten :=
  reverse_flatten_map _ hammingCorrection

theorem bitsToBytes_zero_eq (l : List Bool) :
    bitsToBytes l 0 = (chunksOf 8 (l.drop (l.length % 8))).map packByte := by
  show (((chunksOf 8 (l.drop (l.length % 8))).reverse.map packByte)).reverse = _
  rw [← List.map_reverse, List.reverse_reverse]

theorem padToByte_eq (l : List Bool) :
    padToByte l = l ++ List.replicate ((8 - l.length % 8) % 8) false := by
  unfold padToByte
  by_cases h : l.length % 8 > 0
  · rw [if_pos h]
    have : (l.length / 8 + 1) * 8 - l.length = (8 - l.length % 8) % 8 := by omega
    rw [this]
  · rw [if_neg h]
    have : (8 - l.length % 8) % 8 = 0 := by omega
    rw [this, List.replicate_zero, List.append_nil]

theorem padToByte_length (l : List Bool) :
    (padToByte l).length = l.length + (8 - l.length % 8) % 8 := by
  rw [padToByte_eq, List.length_append, List.length_replicate]

theorem padToByte_mod (l : List Bool) : (padToByte l).length % 8 = 0 := by
  rw [padToByte_length]
  omega

theorem bitsToBytes_one_eq (l : List Bool) :
    bitsToBytes l 1 = (chunksOf 8 (padToByte l)).map packByte := by
  show (((chunksOf 8 ((padToByte l).drop ((padToByte l).length % 8))).reverse.map
    packByte)).reverse = _
  rw [padToByte_mod, List.drop_zero, ← List.map_reverse, List.reverse_reverse]

/-! Small facts about bytes and blocks, settled by evaluation. -/

theorem byteBitsMsb_length (b : Nat) : (byteBitsMsb b).length = 8 := rfl

theorem addHamming7_length (c : List Bool) : (addHamming7 c).length = 7 := rfl

theorem hammingCorrection_length (c : List Bool) : (hammingCorrection c).length = 4 := rfl

set_option maxRecDepth 4096 in
theorem packByte_byteBitsMsb : ∀ b < 256, packByte (byteBitsMsb b) = b := by decide

theorem byteBitsMsb_packByte :
    ∀ a b c d e f g h : Bool,
      byteBitsMsb (packByte [a, b, c, d, e, f, g, h]) = [a, b, c, d, e, f, g, h] := by
  decide

theorem hammingCorrection_addHamming7 :
    ∀ a b c d : Bool,
      (hammingCorrection (addHamming7 [a, b, c, d])).reverse = [a, b, c, d] := by
  decide

theorem list_length4 (c : List Bool) (h : c.length = 4) :
    ∃ a b c1 d, c = [a, b, c1, d] := by
  rcases c with _ | ⟨a, c⟩
  · simp at h
  rcases c with _ | ⟨b, c⟩
  · simp at h
  rcases c with _ | ⟨c1, c⟩
  · simp at h
  rcases c with _ | ⟨d, c⟩
  · simp at h
  rcases c with _ | ⟨e, c⟩
  · exact ⟨a, b, c1, d, rfl⟩
  · simp only [List.length_cons] at h
    omega

theorem list_length7 (c : List Bool) (h : c.length = 7) :
    ∃ a b c1 d e f g, c = [a, b, c1, d, e, f, g] := by
  rcases c with _ | ⟨a, c⟩
  · simp at h
  rcases c with _ | ⟨b, c⟩
  · simp at h
  rcases c with _ | ⟨c1, c⟩
  · simp at h
  rcases c with _ | ⟨d, c⟩
  · simp at h
  rcases c with _ | ⟨e, c⟩
  · simp at h
  rcases c with _ | ⟨f, c⟩
  · simp at h
  rcases c with _ | ⟨g, c⟩
  · simp at h
  rcases c with _ | ⟨i, c⟩
  · exact ⟨a, b, c1, d, e, f, g, rfl⟩
  · simp only [List.length_cons] at h
    omega

theorem list_length8 (c : List Bool) (h : c.length = 8) :
    ∃ a b c1 d e f g h8, c = [a, b, c1, d, e, f, g, h8] := by
  rcases c with _ | ⟨a, c⟩
  · simp at h
  rcases c with _ | ⟨b, c⟩
  · simp at h
  rcases c with _ | ⟨c1, c⟩
  · simp at h
  rcases c with _ | ⟨d, c⟩
  · simp at h
  rcases c with _ | ⟨e, c⟩
  · simp at h
  rcases c with _ | ⟨f, c⟩
  · simp at h
  rcases c with _ | ⟨g, c⟩
  · simp at h
  rcases c with _ | ⟨h8, c⟩
  · simp at h
  rcases c with _ | ⟨i, c⟩
  · exact ⟨a, b, c1, d, e, f, g, h8, rfl⟩
  · simp only [List.length_cons] at h
    omega

theorem byteBitsMsb_packByte_of_length (c : List Bool) (h : c.length = 8) :
    byteBitsMsb (packByte c) = c := by
  obtain ⟨a, b, c1, d, e, f, g, h8, rfl⟩ := list_length8 c h
  exact byteBitsMsb_packByte a b c1 d e f g h8

theorem bytesToBits_length (B : List Nat) : (bytesToBits B).length = 8 * B.length := by
  rw [bytesToBits_eq]
  exact flatten_map_length B byteBitsMsb 8 fun c _ => rfl

/-! Composition lemmas for the encode/decode pipelines. -/

theorem applyHamming_eq (B : List Nat) :
    applyHamming B =
      (chunksOf 8 (padToByte (addHammingParity (bytesToBits B)))).map packByte :=
  bitsToBytes_one_eq _

/-- Packing aligned 8-bit groups into bytes and re-expanding them gives
back the bit stream. -/
theorem bytes_bits_pack (p : List Bool) (h : (8:Nat) ∣ p.length) :
    bytesToBits ((chunksOf 8 p).map packByte) = p := by
  rw [bytesToBits_eq, List.map_map]
  have hmem : ∀ c ∈ chunksOf 8 p, (byteBitsMsb ∘ packByte) c = id c := fun c hc =>
    byteBitsMsb_packByte_of_length c (chunksOf_mem_length 8 (by omega) p h c hc)
  rw [List.map_congr_left hmem, List.map_id, flatten_chunksOf 8 (by omega) p]

/-- Decoding ignores anything appended after the last complete 7-bit
group. -/
theorem removeHammingParity_append (y t : List Bool) (hy : (7:Nat) ∣ y.length)
    (ht : t.length < 7) :
    removeHammingParity (y ++ t) =
      ((chunksOf 7 y).map fun c => (hammingCorrection c).reverse).flatten := by
  rw [removeHammingParity_eq]
  have h1 : 7 * ((y ++ t).length / 7) = y.length := by
    rcases hy with ⟨k, hk⟩
    simp only [List.length_append, hk]
    omega
  rw [h1, List.take_left]

/-- Decoding the concatenation of encoded blocks of a 4-aligned bit
stream gives back the stream. -/
theorem decode_encode_chunks (x : List Bool) (hx : (4:Nat) ∣ x.length) :
    ((chunksOf 7 (((chunksOf 4 x).map addHamming7).flatten)).map
      fun c => (hammingCorrection c).reverse).flatten = x := by
  rw [chunksOf_flatten 7 (by omega) _
      (by intro c hc; obtain ⟨a, _, rfl⟩ := List.mem_map.mp hc; rfl),
    List.map_map]
  have hmem : ∀ c ∈ chunksOf 4 x,
      ((fun c => (hammingCorrection c).reverse) ∘ addHamming7) c = id c := by
    intro c hc
    obtain ⟨a, b, c1, d, rfl⟩ := list_length4 c (chunksOf_mem_length 4 (by omega) x hx c hc)
    exact hammingCorrection_addHamming7 a b c1 d
  rw [List.map_congr_left hmem, List.map_id, flatten_chunksOf 4 (by omega) x]

/-- Expanding bytes to bits and packing them again is the identity on
byte values below 256. -/
theorem bits_bytes_id (B : List Nat) (hB : ∀ b ∈ B, b < 256) :
    bitsToBytes (bytesToBits B) 0 = B := by
  rw [bitsToBytes_zero_eq]
  have h8 : (bytesToBits B).length % 8 = 0 := by
    rw [bytesToBits_length]
    omega
  rw [h8, List.drop_zero, bytesToBits_eq,
    chunksOf_flatten 8 (by omega) _
      (by intro c hc; obtain ⟨a, _, rfl⟩ := List.mem_map.mp hc; rfl),
    List.map_map]
  have hmem : ∀ b ∈ B, (packByte ∘ byteBitsMsb) b = id b := fun b hb =>
    packByte_byteBitsMsb b (hB b hb)
  rw [List.map_congr_left hmem, List.map_id]

/-- Encoding a byte stream produces the encoded blocks of its bit
stream. -/
theorem addHammingParity_bytesToBits (B : List Nat) :
    addHammingParity (bytesToBits B) =
      ((chunksOf 4 (bytesToBits B)).map addHamming7).flatten := by
  rw [addHammingParity_eq]
  have h4 : (bytesToBits B).length % 4 = 0 := by
    rw [bytesToBits_length]
    omega
  rw [h4, List.drop_zero]

/-- The encoded bit stream of an n-byte input has 14n bits. -/
theorem addHammingParity_bytesToBits_length (B : List Nat) :
    (addHammingParity (bytesToBits B)).length = 14 * B.length := by
  have hxlen := bytesToBits_length B
  rw [addHammingParity_bytesToBits,
    flatten_map_length _ addHamming7 7 fun c _ => rfl,
    chunksOf_length 4 (by omega) _ (by omega), hxlen]
  omega

/-- Decoding an encoded byte stream with no corruption reproduces it
exactly. -/
theorem recoverHamming_applyHamming (B : List Nat) (hB : ∀ b ∈ B, b < 256) :
    recoverHamming (applyHamming B) = B := by
  have hxlen := bytesToBits_length B
  have hylen := addHammingParity_bytesToBits_length B
  show bitsToBytes (removeHammingParity (bytesToBits (applyHamming B))) 0 = B
  rw [applyHamming_eq, bytes_bits_pack _ (Nat.dvd_of_mod_eq_zero (padToByte_mod _)),
    padToByte_eq,
    removeHammingParity_append _ _ ⟨2 * B.length, by omega⟩
      (by rw [List.length_replicate]; omega),
    addHammingParity_bytesToBits, decode_encode_chunks _ (by omega),
    bits_bytes_id B hB]

/-! Properties of the noise pass. -/

theorem listFlip_length (l : List Bool) (i : Nat) : (listFlip l i).length = l.length :=
  List.length_set l i _

theorem corruptGroup_length (r1 r2 : Nat) (g : List Bool) :
    (corruptGroup r1 r2 g).length = g.length := by
  unfold corruptGroup
  by_cases h : randomIntNum 0 6 r1 = 4
  · rw [if_pos h, listFlip_length]
  · rw [if_neg h]

theorem hammingErrorFuel_length (σ : Nat → Nat) :
    ∀ fuel t arr, (hammingErrorFuel σ t fuel arr).length = arr.length := by
  intro fuel
  induction fuel with
  | zero => intro t arr; rfl
  | succ fuel ih =>
    intro t arr
    simp only [hammingErrorFuel]
    by_cases h : 7 ≤ arr.length
    · rw [if_pos h]
      simp only [List.length_append, corruptGroup_length, ih, List.length_take,
        List.length_drop]
      omega
    · rw [if_neg h]

theorem hammingError_length (σ : Nat → Nat) (arr : List Bool) :
    (hammingError σ arr).length = arr.length :=
  hammingErrorFuel_length σ arr.length 0 arr

/-- The bits after the last complete 7-bit group pass through the noise
pass unchanged. -/
theorem hammingErrorFuel_drop (σ : Nat → Nat) :
    ∀ fuel t arr, (hammingErrorFuel σ t fuel arr).drop (7 * (arr.length / 7)) =
      arr.drop (7 * (arr.length / 7)) := by
  intro fuel
  induction fuel with
  | zero => intro t arr; rfl
  | succ fuel ih =>
    intro t arr
    simp only [hammingErrorFuel]
    by_cases h : 7 ≤ arr.length
    · rw [if_pos h]
      have hlen : (corruptGroup (σ t) (σ (t + 1)) (arr.take 7)).length = 7 := by
        rw [corruptGroup_length, List.length_take]
        omega
      have hq : 7 * (arr.length / 7) = 7 + 7 * ((arr.drop 7).length / 7) := by
        simp only [List.length_drop]
        omega
      rw [hq, ← List.drop_drop, List.drop_left' hlen, ih, List.drop_drop]
    · rw [if_neg h]

theorem hammingError_drop (σ : Nat → Nat) (arr : List Bool) :
    (hammingError σ arr).drop (7 * (arr.length / 7)) =
      arr.drop (7 * (arr.length / 7)) :=
  hammingErrorFuel_drop σ arr.length 0 arr

/-- Each complete 7-bit group of the output is the corruptGroup image of
the corresponding input group for some pair of consecutive draws. -/
theorem hammingErrorFuel_slice (σ : Nat → Nat) :
    ∀ fuel t arr g, arr.length ≤ fuel → g < arr.length / 7 →
      ∃ u, ((hammingErrorFuel σ t fuel arr).drop (7 * g)).take 7 =
        corruptGroup (σ u) (σ (u + 1)) ((arr.drop (7 * g)).take 7) := by
  intro fuel
  induction fuel with
  | zero =>
    intro t arr g hf hg
    have h0 : arr.length = 0 := by omega
    rw [h0] at hg
    simp at hg
  | succ fuel ih =>
    intro t arr g hf hg
    have h7 : 7 ≤ arr.length := by
      by_contra hcon
      rw [Nat.div_eq_of_lt (by omega)] at hg
      omega
    simp only [hammingErrorFuel, if_pos h7]
    have hlen : (corruptGroup (σ t) (σ (t + 1)) (arr.take 7)).length = 7 := by
      rw [corruptGroup_length, List.length_take]
      omega
    cases g with
    | zero =>
      refine ⟨t, ?_⟩
      simp only [Nat.mul_zero, List.drop_zero]
      rw [List.take_left' hlen]
    | succ g =>
      have hg2 : g < (arr.drop 7).length / 7 := by
        simp only [List.length_drop]
        omega
      obtain ⟨u, hu⟩ := ih (if randomIntNum 0 6 (σ t) = 4 then t + 2 else t + 1)
        (arr.drop 7) g (by simp only [List.length_drop]; omega) hg2
      refine ⟨u, ?_⟩
      rw [show 7 * (g + 1) = 7 + 7 * g from by ring, ← List.drop_drop,
        List.drop_left' hlen, hu, List.drop_drop]

/-- The sentinel draw flips exactly one bit of a 7-bit group; any other
first draw leaves the group untouched. -/
theorem corruptGroup_characterization (r1 r2 : Nat) (g : List Bool) (hg : g.length = 7) :
    (r1 % 7 = 4 → diffCount (corruptGroup r1 r2 g) g = 1) ∧
    (r1 % 7 ≠ 4 → corruptGroup r1 r2 g = g) := by
  have hr1 : randomIntNum 0 6 r1 = r1 % 7 := by simp [randomIntNum]
  have hr2 : randomIntNum 0 6 r2 = r2 % 7 := by simp [randomIntNum]
  constructor
  · intro h4
    unfold corruptGroup
    rw [if_pos (by rw [hr1]; exact h4), hr2]
    obtain ⟨a, b, c, d, e, f, g7, rfl⟩ := list_length7 g hg
    have hlt : r2 % 7 < 7 := Nat.mod_lt _ (by omega)
    have hcases : r2 % 7 = 0 ∨ r2 % 7 = 1 ∨ r2 % 7 = 2 ∨ r2 % 7 = 3 ∨ r2 % 7 = 4 ∨
        r2 % 7 = 5 ∨ r2 % 7 = 6 := by omega
    rcases hcases with h | h | h | h | h | h | h <;> rw [h] <;>
      revert a b c d e f g7 <;> decide
  · intro hne
    unfold corruptGroup
    rw [if_neg (by rw [hr1]; exact hne)]

/-- A group changed by corruptGroup differs from the original in at most
one position. -/
theorem corruptGroup_diff_le (r1 r2 : Nat) (g : List Bool) (hg : g.length = 7) :
    diffCount (corruptGroup r1 r2 g) g ≤ 1 := by
  by_cases h : r1 % 7 = 4
  · rw [(corruptGroup_characterization r1 r2 g hg).1 h]
  · rw [(corruptGroup_characterization r1 r2 g hg).2 h]
    obtain ⟨a, b, c, d, e, f, g7, rfl⟩ := list_length7 g hg
    revert a b c d e f g7
    decide

/-- Decoding produces exactly 4 bits for each complete 7-bit input
group. -/
theorem removeHammingParity_length (l : List Bool) :
    (removeHammingParity l).length = 4 * (l.length / 7) := by
  have htake : (l.take (7 * (l.length / 7))).length = 7 * (l.length / 7) := by
    rw [List.length_take]
    omega
  rw [removeHammingParity_eq,
    flatten_map_length _ _ 4 fun c _ => by
      rw [List.length_reverse, hammingCorrection_length],
    chunksOf_length 7 (by omega) _ (by rw [htake]; exact Dvd.intro _ rfl), htake]
  omega

/-- Every complete 7-bit group of the noise pass's output is the image
of the corresponding input group under corruptGroup. -/
theorem hammingError_slice (σ : Nat → Nat) (arr : List Bool) (g : Nat)
    (hg : g < arr.length / 7) :
    ∃ u, ((hammingError σ arr).drop (7 * g)).take 7 =
      corruptGroup (σ u) (σ (u + 1)) ((arr.drop (7 * g)).take 7) :=
  hammingErrorFuel_slice σ arr.length 0 arr g (Nat.le_refl _) hg

/-! Claim theorems. -/

/-- C1: for every byte sequence B, decoding the encoded form of B with no
corruption reproduces B exactly (so no leading byte is altered by the
trailing padding), and decode_block of encode_block returns every nibble
unchanged with the corrected flag false. -/
theorem roundtrip_identity (B : List Nat) (hB : ∀ b ∈ B, b < 256) :
    recoverHamming (applyHamming B) = B ∧
      ∀ d0 d1 d2 d3 : Bool,
        decodeBlock (encodeBlock d0 d1 d2 d3) = ([d0, d1, d2, d3], false) :=
  ⟨recoverHamming_applyHamming B hB, by decide⟩

theorem roundtrip_identity_witness :
    (∀ b ∈ ([180] : List Nat), b < 256) ∧
      (recoverHamming (applyHamming [180]) = [180] ∧
        ∀ d0 d1 d2 d3 : Bool,
          decodeBlock (encodeBlock d0 d1 d2 d3) = ([d0, d1, d2, d3], false)) :=
  ⟨by decide, roundtrip_identity [180] (by decide)⟩

/-- C2: for every nibble and every codeword position p ∈ {1..7}, flipping
exactly the bit at position p (array index 7 - p) of the encoded block
and decoding yields the original nibble with the corrected flag true. -/
theorem single_flip_correction (d0 d1 d2 d3 : Bool) (p : Nat) (h1 : 1 ≤ p)
    (h2 : p ≤ 7) :
    decodeBlock (listFlip (encodeBlock d0 d1 d2 d3) (7 - p)) =
      ([d0, d1, d2, d3], true) := by
  have hp : p = 1 ∨ p = 2 ∨ p = 3 ∨ p = 4 ∨ p = 5 ∨ p = 6 ∨ p = 7 := by omega
  rcases hp with h | h | h | h | h | h | h <;> subst h <;> revert d0 d1 d2 d3 <;> decide

theorem single_flip_correction_witness :
    (1:Nat) ≤ 5 ∧ (5:Nat) ≤ 7 ∧
      decodeBlock (listFlip (encodeBlock true false true true) (7 - 5)) =
        ([true, false, true, true], true) :=
  ⟨by decide, by decide,
    single_flip_correction true false true true 5 (by decide) (by decide)⟩

/-- C3: parity invariant — for each bit weight 2^k, k ∈ {0,1,2}, the XOR
of the codeword bits at positions p with p AND 2^k nonzero is 0, and
equivalently every uncorrupted codeword has syndrome 0. -/
theorem parity_invariant :
    ∀ (d0 d1 d2 d3 : Bool) (k : Fin 3),
      (((List.range 8).filter fun p => p &&& 2 ^ k.val != 0).map fun p =>
          (encodeBlock d0 d1 d2 d3).getD (7 - p) false).foldr Bool.xor false = false ∧
      flipBitOf (encodeBlock d0 d1 d2 d3) = 0 := by
  decide

/-- C4 counterexample: the claim's expected codeword for nibble 1,0,1,1
has position 1 equal to 0, but encode_block computes P1 = 1 there. -/
theorem concrete_codeword_counterexample :
    encodeBlock true false true true ≠
      [true, false, true, false, true, false, false] := by
  decide

/-- C4 amended: nibble 1,0,1,1 encodes to codeword positions 7..1 =
1,0,1,0,1,0,1, and flipping position 5 then decoding returns 1,0,1,1
with the corrected flag true. -/
theorem concrete_codeword_amended :
    encodeBlock true false true true =
        [true, false, true, false, true, false, true] ∧
      decodeBlock (listFlip (encodeBlock true false true true) (7 - 5)) =
        ([true, false, true, true], true) := by
  decide

/-- C5 counterexample: on the 8-bit stream of one byte, with draws that
never hit the sentinel, the corrupt pass returns all 8 bits — not the
7-bit aligned prefix the claim describes. -/
theorem corrupt_length_counterexample :
    ¬ (hammingError (fun _ => 0) (bytesToBits [170])).length =
        (bytesToBits [170]).length / 7 * 7 := by
  decide

/-- C5 amended: the corrupt pass preserves the input bit count; the
unaligned trailing bits are passed through unchanged, not dropped. -/
theorem corrupt_length_amended (σ : Nat → Nat) (arr : List Bool) :
    (hammingError σ arr).length = arr.length ∧
      (hammingError σ arr).drop (7 * (arr.length / 7)) =
        arr.drop (7 * (arr.length / 7)) :=
  ⟨hammingError_length σ arr, hammingError_drop σ arr⟩

/-- C6: the noise pass preserves the length, leaves every bit outside the
complete 7-bit groups unchanged, changes each complete group in at most
one position, each output group is the corruptGroup image of its input
group for some pair of consecutive draws, and corruptGroup flips exactly
one position when the first draw hits the sentinel (value 4 mod 7) and
leaves the group identical otherwise. -/
theorem noise_single_flip (σ : Nat → Nat) (arr : List Bool) :
    (hammingError σ arr).length = arr.length ∧
      (hammingError σ arr).drop (7 * (arr.length / 7)) =
        arr.drop (7 * (arr.length / 7)) ∧
      (∀ g, g < arr.length / 7 →
        diffCount (((hammingError σ arr).drop (7 * g)).take 7)
          ((arr.drop (7 * g)).take 7) ≤ 1) ∧
      (∀ g, g < arr.length / 7 → ∃ u,
        ((hammingError σ arr).drop (7 * g)).take 7 =
          corruptGroup (σ u) (σ (u + 1)) ((arr.drop (7 * g)).take 7)) ∧
      ∀ r1 r2 (group : List Bool), group.length = 7 →
        (r1 % 7 = 4 → diffCount (corruptGroup r1 r2 group) group = 1) ∧
        (r1 % 7 ≠ 4 → corruptGroup r1 r2 group = group) := by
  refine ⟨hammingError_length σ arr, hammingError_drop σ arr, ?_, ?_, ?_⟩
  · intro g hg
    obtain ⟨u, hu⟩ := hammingError_slice σ arr g hg
    rw [hu]
    exact corruptGroup_diff_le (σ u) (σ (u + 1)) _
      (by simp only [List.length_take, List.length_drop]; omega)
  · intro g hg
    exact hammingError_slice σ arr g hg
  · intro r1 r2 group hgr
    exact corruptGroup_characterization r1 r2 group hgr

/-- C7 counterexample: the selector string "abcezwtl" differs from "0"
and "1" but its str2int hash collides with the hash of "0", so main
dispatches it to the encode transform rather than to the
invalid-parameters branch. -/
theorem mode_selector_counterexample :
    ([97, 98, 99, 101, 122, 119, 116, 108] : List Nat) ≠ [48] ∧
      ([97, 98, 99, 101, 122, 119, 116, 108] : List Nat) ≠ [49] ∧
      mainDispatch [97, 98, 99, 101, 122, 119, 116, 108] ≠
        MainAction.invalidParams := by
  refine ⟨by decide, by decide, ?_⟩
  decide

/-- C7 amended: every selector whose str2int hash differs from the
hashes of "0" and of "1" is dispatched to the invalid-parameters branch,
which performs neither transform. -/
theorem mode_selector_amended (s : List Nat) (h0 : str2int s ≠ str2int [48])
    (h1 : str2int s ≠ str2int [49]) :
    mainDispatch s = MainAction.invalidParams := by
  unfold mainDispatch
  rw [if_neg h0, if_neg h1]

theorem mode_selector_amended_witness :
    str2int [50] ≠ str2int [48] ∧ str2int [50] ≠ str2int [49] ∧
      mainDispatch [50] = MainAction.invalidParams :=
  ⟨by decide, by decide, mode_selector_amended [50] (by decide) (by decide)⟩

/-- C8 counterexample: decoding the three bytes 148, 11, 213 recovers 12
bits; the claim's packing (keep the leading byte, drop the final partial
byte) would output byte 128, but the program aligns its 8-bit groups to
the end of the stream, drops the four leading bits, and outputs 14. -/
theorem decode_packing_counterexample :
    recoverHamming [148, 11, 213] ≠
      bitsToBytesDropFinalSpec (removeHammingParity (bytesToBits [148, 11, 213])) := by
  decide

/-- C8 amended: decode processes exactly the complete 7-bit groups
(floor(n/7) of them, trailing bits ignored without error, 4 output bits
per group), and the final byte packing drops the leading (length mod 8)
bits of the recovered stream — the 8-bit groups are aligned to the end
of the stream, not to its start. -/
theorem decode_truncation_amended (l t : List Bool) (hl : l.length % 7 = 0)
    (ht : t.length < 7) :
    removeHammingParity (l ++ t) = removeHammingParity l ∧
      (removeHammingParity l).length = 4 * (l.length / 7) ∧
      ∀ bits : List Bool,
        bitsToBytes bits 0 = (chunksOf 8 (bits.drop (bits.length % 8))).map packByte := by
  refine ⟨?_, removeHammingParity_length l, fun bits => bitsToBytes_zero_eq bits⟩
  rw [removeHammingParity_append l t (Nat.dvd_of_mod_eq_zero hl) ht,
    removeHammingParity_eq]
  have h7 : 7 * (l.length / 7) = l.length := by omega
  rw [h7, List.take_length]

theorem decode_truncation_amended_witness :
    (List.replicate 7 false).length % 7 = 0 ∧ ([true] : List Bool).length < 7 ∧
      (removeHammingParity (List.replicate 7 false ++ [true]) =
          removeHammingParity (List.replicate 7 false) ∧
        (removeHammingParity (List.replicate 7 false)).length =
          4 * ((List.replicate 7 false).length / 7) ∧
        ∀ bits : List Bool,
          bitsToBytes bits 0 =
            (chunksOf 8 (bits.drop (bits.length % 8))).map packByte) :=
  ⟨by decide, by decide,
    decode_truncation_amended (List.replicate 7 false) [true] (by decide) (by decide)⟩

/-- C9: for every 7-bit block, the syndrome flipBit is at most 7; when it
is nonzero the in-place correction index 7 - flipBit is below the block
length 7, so the corrective flip and the fixed accesses at indices
4,2,1,0 stay in bounds, and the function always returns 4 bits. -/
theorem hammingCorrection_safe (block : List Bool) (h : block.length = 7) :
    flipBitOf block ≤ 7 ∧
      (0 < flipBitOf block → 7 - flipBitOf block < block.length) ∧
      (∀ i ∈ ([4, 2, 1, 0] : List Nat), i < block.length) ∧
      (hammingCorrection block).length = 4 := by
  have hb : ∀ b : Bool, bitVal b ≤ 1 := by decide
  have h1 := hb (columnParity 2 (oddBitPositions block))
  have h2 := hb (columnParity 1 (oddBitPositions block))
  have h3 := hb (columnParity 0 (oddBitPositions block))
  unfold flipBitOf
  refine ⟨by omega, by rw [h]; omega, ?_, hammingCorrection_length block⟩
  intro i hi
  rw [h]
  simp only [List.mem_cons, List.not_mem_nil, or_false] at hi
  omega

theorem hammingCorrection_safe_witness :
    (List.replicate 7 true).length = 7 ∧
      (flipBitOf (List.replicate 7 true) ≤ 7 ∧
        (0 < flipBitOf (List.replicate 7 true) →
          7 - flipBitOf (List.replicate 7 true) < (List.replicate 7 true).length) ∧
        (∀ i ∈ ([4, 2, 1, 0] : List Nat), i < (List.replicate 7 true).length) ∧
        (hammingCorrection (List.replicate 7 true)).length = 4) :=
  ⟨by decide, hammingCorrection_safe (List.replicate 7 true) (by decide)⟩

/-- C10: the encode pipeline emits exactly ceil(7n/4) bytes for an n-byte
input; the zero padding (8 - 14n mod 8) mod 8 is at most 6, strictly
fewer than 7, so the decoder's 7-bit grouping of the padded stream gives
exactly 2n codewords and never a spurious trailing codeword. -/
theorem encode_length (B : List Nat) :
    (applyHamming B).length = (7 * B.length + 3) / 4 ∧
      (8 - 14 * B.length % 8) % 8 ≤ 6 ∧
      8 * (applyHamming B).length / 7 = 2 * B.length := by
  have hylen := addHammingParity_bytesToBits_length B
  have hlen : (applyHamming B).length = (7 * B.length + 3) / 4 := by
    rw [applyHamming_eq, List.length_map,
      chunksOf_length 8 (by omega) _ (Nat.dvd_of_mod_eq_zero (padToByte_mod _)),
      padToByte_length, hylen]
    omega
  exact ⟨hlen, by omega, by rw [hlen]; omega⟩

end Cpphamming

